import Mathlib

/-!
# Verification of the multi-strategy reference search engine

A shallow embedding, in Lean 4, of the reference-search server
(`public/index.html` page + TypeScript server): per-strategy match
classification (exact vs. partial), the external-tool runner and its
fallbacks, the in-process scanner's directory walk, cross-strategy
deduplication, summary aggregation, and the `/find-references` request
handler.  JavaScript strings are modelled as `List Char`/`String`,
JavaScript numbers as `Nat`/`Int`, fallible external calls as explicit
environment records, and `undefined`-able fields as `Option`.
-/

set_option autoImplicit false

namespace McpServer

/-! ## JavaScript string primitives

`isJsWS` covers the ASCII whitespace class of JavaScript's `\s` plus
NBSP and the BOM; the remaining Unicode space code points are omitted
(no claim depends on them). -/

def isJsWS (c : Char) : Bool :=
  c == ' ' || c == '\t' || c == '\n' || c == '\r' ||
  c == '\x0b' || c == '\x0c' || c == Char.ofNat 160 || c == Char.ofNat 65279

/-- `String.prototype.trim` on a character list: strip leading and
trailing whitespace. -/
def jsTrim (l : List Char) : List Char :=
  ((l.dropWhile isJsWS).reverse.dropWhile isJsWS).reverse

/-- `String.prototype.indexOf`: index of the first occurrence of `pat`
in `s`, or `-1` when absent (`"".indexOf("")` is `0`). -/
def jsIndexOf : List Char → List Char → Int
  | s, pat =>
    if pat.isPrefixOf s then 0
    else
      match s with
      | [] => -1
      | _ :: t =>
        let r := jsIndexOf t pat
        if r < 0 then -1 else r + 1

/-- `String.prototype.includes`: substring containment. -/
def strIncludes (s pat : List Char) : Bool :=
  decide (0 ≤ jsIndexOf s pat)

/-- `String.prototype.toLowerCase`, approximated characterwise. -/
def jsToLower (l : List Char) : List Char :=
  l.map Char.toLower

/-- `String.prototype.endsWith`. -/
def jsEndsWith (s suffix : String) : Bool :=
  suffix.data.isSuffixOf s.data

/-- Number of leading whitespace characters of a line. -/
def leadingWS (l : List Char) : Nat :=
  (l.takeWhile isJsWS).length

/-! ## Decimal rendering of JavaScript numbers

Template literals such as `` `${path}:${line}:${column}` `` render their
integer interpolants in decimal.  We model the rendering explicitly so
that we can prove the facts the deduplication claims need: rendered
numbers contain only digits (and a possible leading `-`), hence never a
`:`, and the rendering is injective. -/

def digitCh (d : Nat) : Char := Char.ofNat (48 + d)

/-- Decimal digits of `n`, least significant first. -/
def natCharsRev (n : Nat) : List Char :=
  if h : n < 10 then [digitCh n]
  else digitCh (n % 10) :: natCharsRev (n / 10)
  termination_by n
  decreasing_by
    exact Nat.div_lt_self (by omega) (by omega)

/-- Decimal rendering of a natural number. -/
def natChars (n : Nat) : List Char := (natCharsRev n).reverse

/-- Decimal rendering of an integer (JavaScript number-to-string on
integral values). -/
def intChars : Int → List Char
  | Int.ofNat m => natChars m
  | Int.negSucc m => '-' :: natChars (m + 1)

theorem digitCh_isDigit {d : Nat} (h : d < 10) : (digitCh d).isDigit = true := by
  interval_cases d <;> decide

theorem digitCh_inj {d e : Nat} (hd : d < 10) (he : e < 10)
    (h : digitCh d = digitCh e) : d = e := by
  interval_cases d <;> interval_cases e <;> simp_all <;> exact absurd h (by decide)

theorem natCharsRev_ne_nil (n : Nat) : natCharsRev n ≠ [] := by
  unfold natCharsRev
  split <;> simp

theorem natCharsRev_isDigit (n : Nat) : ∀ c ∈ natCharsRev n, c.isDigit = true := by
  induction n using Nat.strong_induction_on with
  | _ n ih =>
    unfold natCharsRev
    split
    · next h =>
      intro c hc
      simp only [List.mem_singleton] at hc
      exact hc ▸ digitCh_isDigit h
    · next h =>
      intro c hc
      simp only [List.mem_cons] at hc
      rcases hc with hc | hc
      · exact hc ▸ digitCh_isDigit (Nat.mod_lt _ (by omega))
      · exact ih (n / 10) (Nat.div_lt_self (by omega) (by omega)) c hc

theorem natCharsRev_inj : ∀ n m : Nat, natCharsRev n = natCharsRev m → n = m := by
  intro n
  induction n using Nat.strong_induction_on with
  | _ n ih =>
    intro m h
    unfold natCharsRev at h
    by_cases hn : n < 10 <;> by_cases hm : m < 10
    · rw [dif_pos hn, dif_pos hm] at h
      simp only [List.cons.injEq] at h
      exact digitCh_inj hn hm h.1
    · rw [dif_pos hn, dif_neg hm] at h
      simp only [List.cons.injEq] at h
      exact absurd h.2.symm (natCharsRev_ne_nil _)
    · rw [dif_neg hn, dif_pos hm] at h
      simp only [List.cons.injEq] at h
      exact absurd h.2 (natCharsRev_ne_nil _)
    · rw [dif_neg hn, dif_neg hm] at h
      simp only [List.cons.injEq] at h
      have h1 : n % 10 = m % 10 :=
        digitCh_inj (Nat.mod_lt _ (by omega)) (Nat.mod_lt _ (by omega)) h.1
      have h2 : n / 10 = m / 10 :=
        ih (n / 10) (Nat.div_lt_self (by omega) (by omega)) (m / 10) h.2
      omega

theorem natChars_inj {n m : Nat} (h : natChars n = natChars m) : n = m :=
  natCharsRev_inj n m (List.reverse_injective h)

theorem natChars_isDigit (n : Nat) : ∀ c ∈ natChars n, c.isDigit = true := by
  intro c hc
  exact natCharsRev_isDigit n c (List.mem_reverse.mp hc)

theorem natChars_ne_nil (n : Nat) : natChars n ≠ [] := by
  intro h
  exact natCharsRev_ne_nil n (by simpa [natChars] using congrArg List.reverse h)

theorem intChars_no_colon (i : Int) : ∀ c ∈ intChars i, c ≠ ':' := by
  intro c hc
  match i with
  | Int.ofNat m =>
    have := natChars_isDigit m c hc
    intro h; subst h; simp at this
  | Int.negSucc m =>
    simp only [intChars, List.mem_cons] at hc
    rcases hc with hc | hc
    · subst hc; decide
    · have := natChars_isDigit (m + 1) c hc
      intro h; subst h; simp at this

theorem natChars_no_colon (n : Nat) : ∀ c ∈ natChars n, c ≠ ':' := by
  intro c hc
  have := natChars_isDigit n c hc
  intro h; subst h; simp at this

theorem intChars_inj : ∀ i j : Int, intChars i = intChars j → i = j := by
  intro i j h
  match i, j with
  | Int.ofNat m, Int.ofNat k =>
    simp only [intChars] at h
    exact congrArg Int.ofNat (natChars_inj h)
  | Int.ofNat m, Int.negSucc k =>
    simp only [intChars] at h
    have hm : '-' ∈ natChars m := h ▸ List.mem_cons_self _ _
    have := natChars_isDigit m '-' hm
    simp at this
  | Int.negSucc m, Int.ofNat k =>
    simp only [intChars] at h
    have hm : '-' ∈ natChars k := h ▸ List.mem_cons_self _ _
    have := natChars_isDigit k '-' hm
    simp at this
  | Int.negSucc m, Int.negSucc k =>
    simp only [intChars, List.cons.injEq, true_and] at h
    have := natChars_inj h
    exact congrArg Int.negSucc (by omega)

/-- Splitting a colon-joined string at a colon whose left part is
colon-free is unambiguous. -/
theorem append_colon_inj {x1 y1 x2 y2 : List Char}
    (hx1 : ∀ c ∈ x1, c ≠ ':') (hx2 : ∀ c ∈ x2, c ≠ ':')
    (h : x1 ++ ':' :: y1 = x2 ++ ':' :: y2) : x1 = x2 ∧ y1 = y2 := by
  induction x1 generalizing x2 with
  | nil =>
    cases x2 with
    | nil => simpa using h
    | cons c t =>
      simp only [List.nil_append, List.cons_append, List.cons.injEq] at h
      exact absurd h.1.symm (hx2 c (by simp))
  | cons c t ih =>
    cases x2 with
    | nil =>
      simp only [List.nil_append, List.cons_append, List.cons.injEq] at h
      exact absurd h.1 (hx1 c (by simp))
    | cons c' t' =>
      simp only [List.cons_append, List.cons.injEq] at h
      obtain ⟨rfl, h2⟩ := h
      have := ih (fun d hd => hx1 d (by simp [hd])) (fun d hd => hx2 d (by simp [hd])) h2
      exact ⟨by rw [this.1], this.2⟩

theorem reverse_append_colon (p t : List Char) :
    (p ++ ':' :: t).reverse = t.reverse ++ ':' :: p.reverse := by
  simp

/-! ## Data model

`Location` is the common match-record shape produced by all strategy
runners (interface `Location` plus the optional symbol metadata of
`TypeScriptReference`); `EnhancedLocation` adds the fields computed by
`enhanceLocation`.  Optional JavaScript fields are `Option`; `truthy`
models JavaScript truthiness of an optional boolean. -/

structure Location where
  file : String
  line : Nat
  column : Int
  text : String
  isExactMatch : Option Bool := none
  kind : Option Nat := none
  symbolName : Option String := none
  isDefinition : Option Bool := none
  deriving DecidableEq, Repr

structure EnhancedLocation extends Location where
  relativePath : String
  fileType : String
  context : Option String := none
  deriving DecidableEq, Repr

def truthy : Option Bool → Bool
  | some b => b
  | none => false

/-- The dedup key `` `${ref.relativePath}:${ref.line}:${ref.column}` ``
of the request handler, as a character list. -/
def refKey (r : EnhancedLocation) : List Char :=
  r.relativePath.data ++ ':' :: (natChars r.line ++ ':' :: intChars r.column)

/-- The identity key `(relativePath, line, column)` of a record. -/
def tripleOf (r : EnhancedLocation) : String × Nat × Int :=
  (r.relativePath, r.line, r.column)

/-- Rendering of an identity key as the handler's string key. -/
def keyEnc (t : String × Nat × Int) : List Char :=
  t.1.data ++ ':' :: (natChars t.2.1 ++ ':' :: intChars t.2.2)

theorem refKey_eq_keyEnc (r : EnhancedLocation) : refKey r = keyEnc (tripleOf r) := rfl

theorem keyEnc_injective : Function.Injective keyEnc := by
  rintro ⟨p1, n1, c1⟩ ⟨p2, n2, c2⟩ h
  simp only [keyEnc] at h
  have h' := congrArg List.reverse h
  rw [reverse_append_colon, reverse_append_colon, reverse_append_colon,
    reverse_append_colon, List.append_assoc, List.append_assoc] at h'
  simp only [List.cons_append, List.nil_append] at h'
  have hc : ∀ c ∈ (intChars c1).reverse, c ≠ ':' := fun c hc =>
    intChars_no_colon c1 c (List.mem_reverse.mp hc)
  have hc' : ∀ c ∈ (intChars c2).reverse, c ≠ ':' := fun c hc =>
    intChars_no_colon c2 c (List.mem_reverse.mp hc)
  obtain ⟨e1, h1⟩ := append_colon_inj hc hc' h'
  have hn : ∀ c ∈ (natChars n1).reverse, c ≠ ':' := fun c hc =>
    natChars_no_colon n1 c (List.mem_reverse.mp hc)
  have hn' : ∀ c ∈ (natChars n2).reverse, c ≠ ':' := fun c hc =>
    natChars_no_colon n2 c (List.mem_reverse.mp hc)
  obtain ⟨e2, e3⟩ := append_colon_inj hn hn' h1
  have hp : p1 = p2 := by
    apply String.ext
    exact List.reverse_injective e3
  have hnn : n1 = n2 := natChars_inj (List.reverse_injective e2)
  have hcc : c1 = c2 := intChars_inj _ _ (List.reverse_injective e1)
  simp [hp, hnn, hcc]

/-! ## JavaScript `Map` deduplication

`new Map(pairs)` inserts each `[key, value]` pair in order with
`Map.set` semantics: an existing key keeps its position but its value is
overwritten; a new key is appended.  `Array.from(map.values())` reads
the values back in that insertion order.  `firstKeys` and `lastWith`
are the specification-side description used to state the claims. -/

section Dedup

variable {α : Type} {κ κ' : Type} [DecidableEq κ] [DecidableEq κ']

/-- One `Map.set`: overwrite in place when the key exists, else append. -/
def jsMapSet (m : List (κ × α)) (k : κ) (v : α) : List (κ × α) :=
  if k ∈ m.map Prod.fst then
    m.map (fun p => if p.1 = k then (k, v) else p)
  else m ++ [(k, v)]

/-- `new Map(l.map (r => [f r, r]))`. -/
def jsMapOf (f : α → κ) (l : List α) : List (κ × α) :=
  l.foldl (fun m r => jsMapSet m (f r) r) []

/-- `Array.from(new Map(l.map (r => [f r, r])).values())`. -/
def jsMapValues (f : α → κ) (l : List α) : List α :=
  (jsMapOf f l).map Prod.snd

/-- The keys of `l` under `f`, each at its first occurrence. -/
def firstKeys (f : α → κ) (l : List α) : List κ :=
  l.foldl (fun acc r => if f r ∈ acc then acc else acc ++ [f r]) []

/-- The last element of `l` whose key under `f` is `k`. -/
def lastWith (f : α → κ) (l : List α) (k : κ) : Option α :=
  (l.filter (fun r => decide (f r = k))).getLast?

theorem jsMapOf_append_singleton (f : α → κ) (l : List α) (a : α) :
    jsMapOf f (l ++ [a]) = jsMapSet (jsMapOf f l) (f a) a := by
  simp [jsMapOf, List.foldl_append]

theorem firstKeys_append_singleton (f : α → κ) (l : List α) (a : α) :
    firstKeys f (l ++ [a]) =
      if f a ∈ firstKeys f l then firstKeys f l else firstKeys f l ++ [f a] := by
  simp [firstKeys, List.foldl_append]

theorem mem_firstKeys_aux (f : α → κ) (l : List α) (k : κ) :
    ∀ acc : List κ,
      (k ∈ l.foldl (fun acc r => if f r ∈ acc then acc else acc ++ [f r]) acc ↔
        k ∈ acc ∨ ∃ r ∈ l, f r = k) := by
  induction l with
  | nil => intro acc; simp
  | cons a t ih =>
    intro acc
    rw [List.foldl_cons, ih]
    by_cases hm : f a ∈ acc
    · rw [if_pos hm]
      constructor
      · rintro (h | ⟨r, hr, hfr⟩)
        · exact Or.inl h
        · exact Or.inr ⟨r, List.mem_cons_of_mem _ hr, hfr⟩
      · rintro (h | ⟨r, hr, hfr⟩)
        · exact Or.inl h
        · rcases List.mem_cons.mp hr with rfl | hr
          · exact Or.inl (hfr ▸ hm)
          · exact Or.inr ⟨r, hr, hfr⟩
    · rw [if_neg hm]
      constructor
      · rintro (h | ⟨r, hr, hfr⟩)
        · rcases List.mem_append.mp h with h | h
          · exact Or.inl h
          · exact Or.inr ⟨a, List.mem_cons_self _ _, (List.mem_singleton.mp h).symm⟩
        · exact Or.inr ⟨r, List.mem_cons_of_mem _ hr, hfr⟩
      · rintro (h | ⟨r, hr, hfr⟩)
        · exact Or.inl (List.mem_append.mpr (Or.inl h))
        · rcases List.mem_cons.mp hr with rfl | hr
          · exact Or.inl (List.mem_append.mpr (Or.inr (by simp [hfr])))
          · exact Or.inr ⟨r, hr, hfr⟩

theorem mem_firstKeys (f : α → κ) (l : List α) (k : κ) :
    k ∈ firstKeys f l ↔ ∃ r ∈ l, f r = k := by
  rw [firstKeys, mem_firstKeys_aux]
  simp

theorem firstKeys_nodup (f : α → κ) (l : List α) : (firstKeys f l).Nodup := by
  suffices h : ∀ acc : List κ, acc.Nodup →
      (l.foldl (fun acc r => if f r ∈ acc then acc else acc ++ [f r]) acc).Nodup from
    h [] List.nodup_nil
  induction l with
  | nil => intro acc hacc; simpa using hacc
  | cons a t ih =>
    intro acc hacc
    rw [List.foldl_cons]
    by_cases hm : f a ∈ acc
    · rw [if_pos hm]; exact ih acc hacc
    · rw [if_neg hm]
      exact ih _ (by simp [List.nodup_append, hacc, hm])

theorem lastWith_append_singleton (f : α → κ) (l : List α) (a : α) (k : κ) :
    lastWith f (l ++ [a]) k = if f a = k then some a else lastWith f l k := by
  rw [lastWith, List.filter_append]
  by_cases hk : f a = k
  · rw [if_pos hk]
    simp [hk]
  · rw [if_neg hk]
    simp [hk, lastWith]

theorem lastWith_isSome (f : α → κ) (l : List α) (k : κ) (hk : k ∈ firstKeys f l) :
    ∃ v, lastWith f l k = some v := by
  obtain ⟨r, hr, hfr⟩ := (mem_firstKeys f l k).mp hk
  have hne : l.filter (fun r => decide (f r = k)) ≠ [] := by
    intro hnil
    have : r ∈ l.filter (fun r => decide (f r = k)) := by
      rw [List.mem_filter]
      exact ⟨hr, by simp [hfr]⟩
    rw [hnil] at this
    simp at this
  obtain ⟨v, hv⟩ := Option.isSome_iff_exists.mp (List.getLast?_isSome.mpr hne)
  exact ⟨v, hv⟩

theorem jsMapOf_keys (f : α → κ) (l : List α) :
    (jsMapOf f l).map Prod.fst = firstKeys f l := by
  induction l using List.reverseRecOn with
  | nil => rfl
  | append_singleton l a ih =>
    rw [jsMapOf_append_singleton, firstKeys_append_singleton, jsMapSet, ih]
    by_cases hm : f a ∈ firstKeys f l
    · rw [if_pos hm, if_pos hm, List.map_map, ← ih]
      apply List.map_congr_left
      intro p _
      by_cases hp : p.1 = f a <;> simp [hp]
    · rw [if_neg hm, if_neg hm, List.map_append, ih]
      rfl

/-- The value sequence of the JavaScript `Map` built over `l`: one entry
per key, keyed at the key's first occurrence, valued at the key's last
occurrence. -/
theorem jsMapOf_eq (f : α → κ) (l : List α) :
    jsMapOf f l =
      (firstKeys f l).filterMap (fun k => (lastWith f l k).map (fun v => (k, v))) := by
  induction l using List.reverseRecOn with
  | nil => rfl
  | append_singleton l a ih =>
    rw [jsMapOf_append_singleton, jsMapSet, jsMapOf_keys, firstKeys_append_singleton]
    by_cases hm : f a ∈ firstKeys f l
    · rw [if_pos hm, if_pos hm, ih, List.map_filterMap]
      apply List.filterMap_congr
      intro k hk
      rw [lastWith_append_singleton]
      by_cases hka : f a = k
      · subst hka
        obtain ⟨v, hv⟩ := lastWith_isSome f l (f a) hm
        simp [hv]
      · rw [if_neg hka]
        cases hlw : lastWith f l k with
        | none => simp
        | some v =>
          simp only [Option.map_some, Option.map_map]
          have : (k, v).1 ≠ f a := fun h => hka h.symm
          simp [this]
    · rw [if_neg hm, if_neg hm, ih, List.filterMap_append]
      congr 1
      · apply List.filterMap_congr
        intro k hk
        rw [lastWith_append_singleton]
        have : f a ≠ k := fun h => hm (h ▸ hk)
        rw [if_neg this]
      · rw [List.filterMap_cons, lastWith_append_singleton, if_pos rfl]
        rfl

theorem jsMapValues_eq (f : α → κ) (l : List α) :
    jsMapValues f l = (firstKeys f l).filterMap (lastWith f l) := by
  rw [jsMapValues, jsMapOf_eq, List.map_filterMap]
  apply List.filterMap_congr
  intro k _
  cases lastWith f l k <;> simp

theorem firstKeys_comp (e : κ → κ') (he : Function.Injective e) (f : α → κ)
    (l : List α) : firstKeys (fun r => e (f r)) l = (firstKeys f l).map e := by
  suffices h : ∀ acc : List κ,
      l.foldl (fun acc r => if e (f r) ∈ acc then acc else acc ++ [e (f r)]) (acc.map e) =
        (l.foldl (fun acc r => if f r ∈ acc then acc else acc ++ [f r]) acc).map e by
    simpa using h []
  induction l with
  | nil => intro acc; rfl
  | cons a t ih =>
    intro acc
    rw [List.foldl_cons, List.foldl_cons]
    by_cases hm : f a ∈ acc
    · rw [if_pos hm, if_pos (List.mem_map_of_injective he |>.mpr hm), ih]
    · rw [if_neg hm, if_neg (fun hc => hm ((List.mem_map_of_injective he).mp hc))]
      simpa using ih (acc ++ [f a])

theorem lastWith_comp (e : κ → κ') (he : Function.Injective e) (f : α → κ)
    (l : List α) (k : κ) : lastWith (fun r => e (f r)) l (e k) = lastWith f l k := by
  rw [lastWith, lastWith]
  congr 1
  apply List.filter_congr
  intro r _
  simp [he.eq_iff]

theorem jsMapValues_comp (e : κ → κ') (he : Function.Injective e) (f : α → κ)
    (l : List α) :
    jsMapValues (fun r => e (f r)) l = (firstKeys f l).filterMap (lastWith f l) := by
  rw [jsMapValues_eq, firstKeys_comp e he, List.filterMap_map]
  apply List.filterMap_congr
  intro k _
  exact lastWith_comp e he f l k

theorem jsMapOf_of_nodup (f : α → κ) (l : List α) (h : (l.map f).Nodup) :
    jsMapOf f l = l.map (fun r => (f r, r)) := by
  suffices haux : ∀ (t : List α) (m : List (κ × α)), (t.map f).Nodup →
      (∀ k ∈ m.map Prod.fst, k ∉ t.map f) →
      (t.foldl (fun m r => jsMapSet m (f r) r) m) = m ++ t.map (fun r => (f r, r)) by
    simpa using haux l [] h (by simp)
  intro t
  induction t with
  | nil => intro m _ _; simp
  | cons a s ih =>
    intro m hnd hdisj
    have hfa : f a ∈ (a :: s).map f := by simp
    have hnotin : f a ∉ m.map Prod.fst := fun hc => hdisj (f a) hc hfa
    rw [List.foldl_cons, jsMapSet, if_neg hnotin]
    have hnd' : (s.map f).Nodup := by
      simp only [List.map_cons, List.nodup_cons] at hnd
      exact hnd.2
    have hhead : f a ∉ s.map f := by
      simp only [List.map_cons, List.nodup_cons] at hnd
      exact hnd.1
    have hdisj' : ∀ k ∈ (m ++ [(f a, a)]).map Prod.fst, k ∉ s.map f := by
      intro k hk
      have hk2 : k ∈ m.map Prod.fst ++ [f a] := by simpa using hk
      rcases List.mem_append.mp hk2 with hk' | hk'
      · exact fun hmem => hdisj k hk' (by simp [hmem])
      · rw [List.mem_singleton] at hk'
        subst hk'
        exact hhead
    rw [ih (m ++ [(f a, a)]) hnd' hdisj']
    simp

end Dedup

/-! ## `parseGrepOutput`

Each output line is matched against `/^(.+):(\d+):(.*)$/`.  The greedy
`(.+)` takes the longest file prefix such that the rest still matches
`:(\d+):(.*)`; since `\d+` can never give back a digit in front of a
literal `:` (a digit is not a colon), this is equivalent to: split at
the rightmost colon that is followed by a nonempty digit run and
another colon.  `.` does not match `\r`, and the three groups must
jointly cover the line, so any line containing `\r` fails to match. -/

/-- Match `(\d+):(.*)` at the front: a maximal nonempty digit run, a
colon, and the remainder. -/
def digitsColonSplit (l : List Char) : Option (List Char × List Char) :=
  match l.takeWhile Char.isDigit, l.dropWhile Char.isDigit with
  | [], _ => none
  | d, ':' :: b => some (d, b)
  | _, _ => none

/-- Rightmost decomposition `A ++ ':' ++ D ++ ':' ++ B` with `D` a
nonempty digit run (the file group `A` may still be empty here). -/
def fltSplitAux : List Char → Option (List Char × List Char × List Char)
  | [] => none
  | c :: rest =>
    match fltSplitAux rest with
    | some (a, d, b) => some (c :: a, d, b)
    | none =>
      if c = ':' then (digitsColonSplit rest).map (fun p => ([], p.1, p.2))
      else none

/-- The JavaScript match `line.match(/^(.+):(\d+):(.*)$/)`, returning
the three groups (file, line digits, text). -/
def matchFLT (l : List Char) : Option (List Char × List Char × List Char) :=
  if '\r' ∈ l then none
  else
    match fltSplitAux l with
    | some ([], _, _) => none
    | some (a, d, b) => some (a, d, b)
    | none => none

/-- `parseInt(digits, 10)` on a nonempty digit run. -/
def digitsToNat (d : List Char) : Nat :=
  d.foldl (fun a c => a * 10 + (c.toNat - 48)) 0

/-- `output.split('\n')` (`String.prototype.split` with a single-char
separator); `[""]` for the empty string. -/
def splitLines : List Char → List (List Char)
  | [] => [[]]
  | c :: rest =>
    let r := splitLines rest
    if c = '\n' then [] :: r
    else
      match r with
      | [] => [[c]]
      | h :: t => (c :: h) :: t

/-- The body of the `parseGrepOutput` loop for one matched line. -/
def parseGrepLine (isExact : Bool) (line : List Char) : Option Location :=
  match matchFLT line with
  | none => none
  | some (f, d, t) =>
    if strIncludes f "node_modules".data then none
    else
      some
        { file := String.mk f
          line := digitsToNat d
          column := jsIndexOf t (jsTrim t) + 1
          text := String.mk (jsTrim t)
          isExactMatch := some isExact }

/-- `parseGrepOutput(output, isExactMatch)`: split on newlines, keep
lines with truthy trim, parse each line of the form `file:line:text`. -/
def parseGrepOutput (output : String) (isExact : Bool) : List Location :=
  ((splitLines output.data).filter (fun l => !(jsTrim l).isEmpty)).filterMap
    (parseGrepLine isExact)

/-! ## External-Tool Runner

`searchWithRipgrep` resolves with the parsed, `node_modules`-filtered
output when the process closes with exit code 0 or 1, and with `[]`
otherwise (stderr noise, spawn errors and timeouts also resolve `[]`;
the event-level model is `rgStep`/`rgRun` below).  `RgEnv` records the
stdout and exit code of the two invocations (whole-word and
unconstrained); `SearchEnv` adds tool availability, the grep fallback's
outputs and, as an oracle, what `findReferencesWithNode` would return. -/

structure RgEnv where
  wordOut : String
  wordCode : Int
  allOut : String
  allCode : Int
  deriving Repr

/-- The value the `close` handler resolves with: `[]` for an exit code
other than 0 or 1, else the parsed output minus `node_modules` paths. -/
def rgCloseValue (exactMatch : Bool) (output : String) (code : Int) : List Location :=
  if code ≠ 0 ∧ code ≠ 1 then []
  else
    (parseGrepOutput output exactMatch).filter
      (fun r => !strIncludes r.file.data "node_modules".data)

/-- The resolved value of one `searchWithRipgrep(word, directory,
exactMatch)` call that ended with a `close` event. -/
def searchWithRipgrep (env : RgEnv) (exactMatch : Bool) : List Location :=
  rgCloseValue exactMatch (if exactMatch then env.wordOut else env.allOut)
    (if exactMatch then env.wordCode else env.allCode)

structure SearchEnv where
  ripgrepAvailable : Bool
  grepAvailable : Bool
  rg : RgEnv
  grepWordOut : String
  grepAllOut : String
  /-- Oracle: what `findReferencesWithNode(word, directory)` would
  return.  `findReferencesWithGrep` reaches it only from its `catch`
  block, and `fallbackToGrep` reaches it only from its own `catch`
  block; no operation in either `try` body can reject (each `execAsync`
  carries `.catch(() => ({stdout: ''}))`), so neither model ever reads
  this field. -/
  nodeResults : List Location
  deriving Repr

/-- The key `` `${match.file}:${match.line}:${match.text}` `` used for
the exact/partial split in both external-tool paths. -/
def keyFLT (r : Location) : List Char :=
  r.file.data ++ ':' :: (natChars r.line ++ ':' :: r.text.data)

/-- `fallbackToGrep(word, directory)`.  When grep is unavailable both
`execAsync` calls reject and their `.catch(() => ({stdout: ''}))`
yields empty output, so parsing yields no matches; the surrounding
`try`/`catch` (which would delegate to `findReferencesWithNode`) never
fires because nothing in the body throws. -/
def fbExact (env : SearchEnv) : List Location :=
  parseGrepOutput (if env.grepAvailable then env.grepWordOut else "") true

def fbPartialCandidates (env : SearchEnv) : List Location :=
  parseGrepOutput (if env.grepAvailable then env.grepAllOut else "") false

def fallbackToGrep (env : SearchEnv) : List Location :=
  let exactMatches := fbExact env
  let partialCandidates := fbPartialCandidates env
  let exactMatchSet := exactMatches.map keyFLT
  exactMatches ++ partialCandidates.filter (fun m => !decide (keyFLT m ∈ exactMatchSet))

/-- The ripgrep branch of `findReferencesWithGrep`: whole-word matches
are trusted exact; the unconstrained matches whose key is absent from
the exact set *and* whose text contains the word case-insensitively
become the partial set. -/
def rgSearchPath (env : SearchEnv) (word : String) : List Location :=
  let allMatches := searchWithRipgrep env.rg false
  let exactMatches := searchWithRipgrep env.rg true
  let exactMatchSet := exactMatches.map keyFLT
  let partialMatches :=
    (allMatches.filter (fun m =>
        !decide (keyFLT m ∈ exactMatchSet) &&
        strIncludes (jsToLower m.text.data) (jsToLower word.data))).map
      (fun m => { m with isExactMatch := some false })
  exactMatches ++ partialMatches

/-- `findReferencesWithGrep(word, directory)`. -/
def findReferencesWithGrep (env : SearchEnv) (word : String) : List Location :=
  if env.ripgrepAvailable then rgSearchPath env word
  else fallbackToGrep env

/-! ## Enhancement, grouping and the request handler -/

/-- `path.extname`, restricted to its use here (basename after the last
separator; extension from its last dot, empty when the only dot is the
leading one). -/
def jsExtname (s : String) : String :=
  let base := (s.data.reverse.takeWhile (fun c => c ≠ '/')).reverse
  let revBase := base.reverse
  let afterDotRev := revBase.takeWhile (fun c => c ≠ '.')
  if afterDotRev.length = revBase.length then ""
  else if base.length - 1 - afterDotRev.length = 0 then ""
  else String.mk ('.' :: afterDotRev.reverse)

/-- `path.relative(base, file)` for the arising case of `file` lying
under `base` (runner paths are produced by joining `base` with walk
components); other cases return `file` unchanged. -/
def pathRelative (base file : String) : String :=
  if (base.data ++ ['/']).isPrefixOf file.data then
    String.mk (file.data.drop (base.data.length + 1))
  else file

/-- `enhanceLocation(location, baseDir)`: spread the record and add
`relativePath`, `fileType` and `context` (symbol metadata, when
present, is carried over by the spread). -/
def enhanceLocation (location : Location) (baseDir : String) : EnhancedLocation :=
  { location with
    relativePath := pathRelative baseDir location.file
    fileType := (jsExtname location.file).drop 1
    context := some location.text }

/-- `groupReferencesByFileType`: a JavaScript object used as an ordered
multimap (string keys keep insertion order for the extension keys
arising here). -/
def groupReferencesByFileType (references : List EnhancedLocation) :
    List (String × List EnhancedLocation) :=
  references.foldl
    (fun acc r =>
      if r.fileType ∈ acc.map Prod.fst then
        acc.map (fun p => if p.1 = r.fileType then (p.1, p.2 ++ [r]) else p)
      else acc ++ [(r.fileType, [r])])
    []

/-- The handler's deduplication
`Array.from(new Map(enhancedReferences.map(ref => [key, ref])).values())`. -/
def uniqueRefs (enhancedReferences : List EnhancedLocation) : List EnhancedLocation :=
  jsMapValues refKey enhancedReferences

structure Summary where
  totalFiles : Nat
  totalMatches : Nat
  fileTypes : List (String × Nat)
  definitions : Nat
  references : Nat
  exactMatches : Nat
  partialMatches : Nat
  deriving DecidableEq, Repr

inductive Strategy where
  | grep
  | node
  | typescript
  | all
  deriving DecidableEq, Repr

structure Metadata where
  strategy : Strategy
  searchTime : Nat
  searchedWord : String
  directory : String
  timestamp : String
  deriving DecidableEq, Repr

structure EnhancedSearchResult where
  references : List EnhancedLocation
  groupedByFileType : List (String × List EnhancedLocation)
  summary : Summary
  metadata : Metadata
  deriving DecidableEq, Repr

/-- The summary computed by the handler from the deduplicated record
sequence. -/
def summaryOfRefs (uniq : List EnhancedLocation) : Summary :=
  { totalFiles := (uniq.map (fun r => r.file)).dedup.length
    totalMatches := uniq.length
    exactMatches := (uniq.filter (fun r => truthy r.isExactMatch)).length
    partialMatches := (uniq.filter (fun r => !truthy r.isExactMatch)).length
    fileTypes := (groupReferencesByFileType uniq).map (fun p => (p.1, p.2.length))
    definitions := (uniq.filter (fun r => truthy r.isDefinition)).length
    references := (uniq.filter (fun r => !truthy r.isDefinition)).length }

/-- Lines 1033–1071 of the request handler: enhance, deduplicate,
group, and aggregate the summary. -/
def buildResult (word directory : String) (strategy : Strategy) (searchTime : Nat)
    (timestamp : String) (references : List Location) : EnhancedSearchResult :=
  let enhancedReferences := references.map (fun ref => enhanceLocation ref directory)
  let uniq := uniqueRefs enhancedReferences
  { references := uniq
    groupedByFileType := groupReferencesByFileType uniq
    summary := summaryOfRefs uniq
    metadata :=
      { strategy := strategy
        searchTime := searchTime
        searchedWord := word
        directory := directory
        timestamp := timestamp } }

/-- Outcome of each runner call made by the handler; `none` models a
thrown/rejected call, which the handler's `try`/`catch` logs and
ignores. -/
structure RunnerOutcomes where
  tsResults : Option (List Location)
  grepResults : Option (List Location)
  nodeResults : Option (List Location)
  deriving Repr

/-- The record set accumulated by steps 2–3 of the orchestrator (the
TypeScript-aware and grep searches). -/
def stepRefs (strategy : Strategy) (ro : RunnerOutcomes) : List Location :=
  let refs1 :=
    if strategy = Strategy.all ∨ strategy = Strategy.typescript then
      (ro.tsResults.getD [])
    else []
  if strategy = Strategy.all ∨ strategy = Strategy.grep then
    refs1 ++ (ro.grepResults.getD [])
  else refs1

structure RunOutcome where
  refs : List Location
  ranTypescript : Bool
  ranGrep : Bool
  ranNode : Bool
  deriving Repr

/-- The strategy dispatch of the request handler (lines 996–1031). -/
def runSearch (strategy : Strategy) (ro : RunnerOutcomes) : RunOutcome :=
  let refs := stepRefs strategy ro
  let nodeRuns : Bool :=
    decide ((strategy = Strategy.all ∧ refs.length = 0) ∨ strategy = Strategy.node)
  { refs := if nodeRuns then refs ++ (ro.nodeResults.getD []) else refs
    ranTypescript := decide (strategy = Strategy.all ∨ strategy = Strategy.typescript)
    ranGrep := decide (strategy = Strategy.all ∨ strategy = Strategy.grep)
    ranNode := nodeRuns }

/-- A parsed `/find-references` request body; a missing field is
`none`. -/
structure SearchRequest where
  word : Option String
  directory : Option String
  searchStrategy : Option Strategy
  deriving Repr

/-- JavaScript falsiness of an optional string (`undefined` and `""`
are falsy). -/
def jsFalsy : Option String → Bool
  | none => true
  | some s => s.isEmpty

inductive ErrorDetails where
  | missingFields (word : Option String) (directory : Option String)
  | message (s : String)
  deriving DecidableEq, Repr

inductive HandlerResponse where
  | badRequest (error : String) (details : ErrorDetails)
  | ok (result : EnhancedSearchResult)
  deriving DecidableEq, Repr

structure HandlerTrace where
  response : HandlerResponse
  ranTypescript : Bool
  ranGrep : Bool
  ranNode : Bool
  deriving Repr

/-- The `/find-references` request handler (validation, strategy
dispatch, result construction).  `fsExists` is the `fs.existsSync`
oracle, `ro` the runner outcomes, `searchTime`/`timestamp` the clock
readings. -/
def handleFindReferences (req : SearchRequest) (fsExists : String → Bool)
    (ro : RunnerOutcomes) (searchTime : Nat) (timestamp : String) : HandlerTrace :=
  if jsFalsy req.word || jsFalsy req.directory then
    { response :=
        HandlerResponse.badRequest "Missing required fields"
          (ErrorDetails.missingFields
            (if jsFalsy req.word then some "Missing search term" else none)
            (if jsFalsy req.directory then some "Missing directory" else none))
      ranTypescript := false, ranGrep := false, ranNode := false }
  else if !fsExists (req.directory.getD "") then
    { response :=
        HandlerResponse.badRequest "Invalid directory"
          (ErrorDetails.message ("Directory does not exist: " ++ req.directory.getD ""))
      ranTypescript := false, ranGrep := false, ranNode := false }
  else
    let strategy := req.searchStrategy.getD Strategy.all
    let run := runSearch strategy ro
    { response :=
        HandlerResponse.ok
          (buildResult (req.word.getD "") (req.directory.getD "") strategy searchTime
            timestamp run.refs)
      ranTypescript := run.ranTypescript
      ranGrep := run.ranGrep
      ranNode := run.ranNode }

/-! ## Filesystem model and the In-Process Scanner Runner

Directory trees are mutual inductives (a file carries its content as
the list of lines it splits into on `\n`).  Paths are component lists
relative to the search root, so `relativePath` of an emitted record is
its component list. -/

mutual
inductive FSTree where
  | file (name : String) (lines : List String) : FSTree
  | dir (name : String) (children : FSForest) : FSTree

inductive FSForest where
  | nil : FSForest
  | cons (t : FSTree) (rest : FSForest) : FSForest
end

def FSTree.name : FSTree → String
  | .file n _ => n
  | .dir n _ => n

def ignoreDirsList : List String :=
  ["node_modules", ".git", "dist", "build", "out", ".next", "coverage", ".cache"]

def supportedExtensionsList : List String :=
  [".ts", ".js", ".tsx", ".jsx", ".json", ".html", ".css", ".md", ".yaml", ".yml"]

/-- A record emitted by the in-process scanner (`file` kept as the
path's component list relative to the search root). -/
structure NodeLoc where
  relPath : List String
  line : Nat
  column : Int
  text : String
  isExactMatch : Bool
  deriving DecidableEq, Repr

/-- The key `` `${filePath}:${i + 1}:${match.index + 1}:${line.trim()}` ``
of the scanner's `exactMatches` set. -/
def nodeKey (fp : List String) (ln : Nat) (col : Nat) (txt : List Char) : List Char :=
  (String.intercalate "/" fp).data ++
    ':' :: (natChars ln ++ ':' :: (natChars col ++ ':' :: txt))

structure NodeScanState where
  processed : List (List String)
  exactKeys : List (List Char)
  locs : List NodeLoc

/-- One line of a scanned file: the whole-word pass (recording keys and
exact records), then the substring pass (partial records whose key is
not already exact).  `wordIdx`/`subIdx` are oracles for the JavaScript
`exec` loops of `new RegExp('\\b' + word + '\\b', 'gi')` and
`new RegExp(word, 'gi')`, giving the `match.index` values in order. -/
def processLine (wordIdx subIdx : String → List Nat) (fp : List String) (i : Nat)
    (line : String) (st : NodeScanState) : NodeScanState :=
  let trimmed := jsTrim line.data
  let st1 :=
    (wordIdx line).foldl
      (fun s mi =>
        { s with
          exactKeys := s.exactKeys ++ [nodeKey fp (i + 1) (mi + 1) trimmed]
          locs := s.locs ++
            [{ relPath := fp, line := i + 1, column := (mi : Int) + 1,
               text := String.mk trimmed, isExactMatch := true }] })
      st
  (subIdx line).foldl
    (fun s mi =>
      if nodeKey fp (i + 1) (mi + 1) trimmed ∈ s.exactKeys then s
      else
        { s with
          locs := s.locs ++
            [{ relPath := fp, line := i + 1, column := (mi : Int) + 1,
               text := String.mk trimmed, isExactMatch := false }] })
    st1

def processFile (wordIdx subIdx : String → List Nat) (fp : List String)
    (lines : List String) (st : NodeScanState) : NodeScanState :=
  lines.enum.foldl (fun s p => processLine wordIdx subIdx fp p.1 p.2 s) st

mutual
/-- One iteration of the `searchInDirectory` loop body for entry `t`
under `base`. -/
def scanEntry (wordIdx subIdx : String → List Nat) (base : List String) (t : FSTree)
    (st : NodeScanState) : NodeScanState :=
  let fullPath := base ++ [t.name]
  if fullPath ∈ st.processed then st
  else
    let st1 := { st with processed := st.processed ++ [fullPath] }
    match t with
    | .dir name children =>
      if name ∈ ignoreDirsList then st1
      else scanForest wordIdx subIdx fullPath children st1
    | .file name lines =>
      if jsExtname name ∈ supportedExtensionsList then
        processFile wordIdx subIdx fullPath lines st1
      else st1

def scanForest (wordIdx subIdx : String → List Nat) (base : List String) (f : FSForest)
    (st : NodeScanState) : NodeScanState :=
  match f with
  | .nil => st
  | .cons t rest =>
    scanForest wordIdx subIdx base rest (scanEntry wordIdx subIdx base t st)
end

/-- `findReferencesWithNode(word, baseDir)` over the forest of entries
of `baseDir`. -/
def findReferencesWithNode (wordIdx subIdx : String → List Nat) (root : FSForest) :
    List NodeLoc :=
  (scanForest wordIdx subIdx [] root
    { processed := [], exactKeys := [], locs := [] }).locs

/-! ## `findTypeScriptFiles` (Symbol-Aware Runner file discovery)

The walk descends into every directory except `node_modules` and
`.git` — the build/output names excluded elsewhere are *not* excluded
here — and collects `.ts`/`.tsx` files with their contents. -/

mutual
def ftsEntry (base : List String) (t : FSTree) : List (List String × List String) :=
  match t with
  | .dir name children =>
    if name ≠ "node_modules" ∧ name ≠ ".git" then
      ftsForest (base ++ [name]) children
    else []
  | .file name lines =>
    if jsEndsWith name ".ts" ∨ jsEndsWith name ".tsx" then [(base ++ [name], lines)]
    else []

def ftsForest (base : List String) (f : FSForest) : List (List String × List String) :=
  match f with
  | .nil => []
  | .cons t rest => ftsEntry base t ++ ftsForest base rest
end

/-- `findTypeScriptFiles(directory)`: paths (with contents) of the
discovered source files, relative to the root. -/
def findTypeScriptFiles (root : FSForest) : List (List String × List String) :=
  ftsForest [] root

/-- A record of the Symbol-Aware Runner, path kept as components
relative to the root. -/
structure TsLoc where
  relPath : List String
  line : Nat
  column : Nat
  deriving DecidableEq, Repr

/-- Modelled from the spec: the per-file identifier matching of the
Symbol-Aware Runner ("for every identifier token whose text equals the
search term, emits a Match Record") is performed by the TypeScript
compiler API, which is external to this repository; `idMatches` is the
oracle giving the (line, column) pairs of such tokens in a file's
lines.  File discovery itself is `findTypeScriptFiles` from the
source. -/
def tsRunnerRecords (idMatches : List String → List (Nat × Nat)) (root : FSForest) :
    List TsLoc :=
  (findTypeScriptFiles root).flatMap
    (fun pf => (idMatches pf.2).map (fun lc => ⟨pf.1, lc.1, lc.2⟩))

/-! ## The event-level model of `searchWithRipgrep`

The promise executor attaches `data` handlers accumulating output, two
`close` handlers (the first resolves with the parsed output when the
exit code is 0 or 1 and with `[]` otherwise, the second clears the
timeout), an `error` handler resolving `[]`, and a 30000 ms timeout
(`rgTimeoutMs`) that kills the child process and resolves `[]`.  A
promise resolves at most once: later resolutions are no-ops. -/

def rgTimeoutMs : Nat := 30000

inductive RgEvent where
  | outData (s : String)
  | errData (s : String)
  | closeEv (code : Int)
  | errorEv
  | timeoutEv
  deriving DecidableEq, Repr

structure RgPromise where
  output : String
  errorOutput : String
  result : Option (List Location)
  killed : Bool
  timeoutCleared : Bool
  deriving Repr

def rgResolve (st : RgPromise) (v : List Location) : RgPromise :=
  match st.result with
  | some _ => st
  | none => { st with result := some v }

def rgStep (exactMatch : Bool) (st : RgPromise) (e : RgEvent) : RgPromise :=
  match e with
  | .outData s => { st with output := st.output ++ s }
  | .errData s => { st with errorOutput := st.errorOutput ++ s }
  | .closeEv code =>
    let st1 := rgResolve st (rgCloseValue exactMatch st.output code)
    { st1 with timeoutCleared := true }
  | .errorEv => rgResolve st []
  | .timeoutEv =>
    if st.timeoutCleared then st
    else rgResolve { st with killed := true } []

def rgInit : RgPromise :=
  { output := "", errorOutput := "", result := none, killed := false,
    timeoutCleared := false }

/-- Run one `searchWithRipgrep` invocation over a sequence of events. -/
def rgRun (exactMatch : Bool) (events : List RgEvent) : RgPromise :=
  events.foldl (rgStep exactMatch) rgInit

/-! ## Concrete instances used by witnesses and counterexamples -/

def envC3 : SearchEnv :=
  { ripgrepAvailable := true
    grepAvailable := true
    rg := { wordOut := "", wordCode := 1, allOut := "a.ts:1:fox", allCode := 0 }
    grepWordOut := ""
    grepAllOut := ""
    nodeResults := [] }

def locC3 : Location :=
  { file := "a.ts", line := 1, column := 1, text := "fox", isExactMatch := some false }

/-- No component of the path is an excluded directory name. -/
def goodPath (p : List String) : Bool :=
  p.all (fun c => !decide (c ∈ ignoreDirsList))

def goodLoc (loc : NodeLoc) : Bool := goodPath loc.relPath

/-- No component of the path is `node_modules` or `.git`. -/
def goodTsPath (p : List String) : Bool :=
  p.all (fun c => !decide (c = "node_modules") && !decide (c = ".git"))

def forestC6 : FSForest :=
  .cons (.dir "dist" (.cons (.file "a.ts" ["const foo = 1;"]) .nil)) .nil

def RgEvent.isClose : RgEvent → Bool
  | .closeEv _ => true
  | _ => false

/-- The location parsed from the line `f.ts:3:  foo `. -/
def locC10 : Location :=
  { file := "f.ts", line := 3, column := 3, text := "foo", isExactMatch := some true }

/-- C5 (code bug): with ripgrep and grep both unavailable, the
external-tool runner returns the empty list — the grep invocations'
rejections are swallowed by `.catch(() => ({stdout: ''}))`, so the
`catch` that would delegate to `findReferencesWithNode` never fires —
even though the node scanner (the `nodeResults` oracle) would have
found matches. -/
def envC5 : SearchEnv :=
  { ripgrepAvailable := false
    grepAvailable := false
    rg := ⟨"", 1, "", 1⟩
    grepWordOut := "/d/a.ts:1:foo bar"
    grepAllOut := "/d/a.ts:1:foo bar"
    nodeResults :=
      [{ file := "/d/a.ts", line := 1, column := 1, text := "foo bar",
         isExactMatch := some true }] }

/-! ## General lemmas -/

theorem length_filter_partition {α : Type} (p : α → Bool) (l : List α) :
    (l.filter p).length + (l.filter (fun a => !p a)).length = l.length := by
  induction l with
  | nil => rfl
  | cons a t ih =>
    by_cases h : p a <;> simp [List.filter_cons, h] <;> omega

theorem parseGrepOutput_flag (output : String) (b : Bool) :
    ∀ m ∈ parseGrepOutput output b, m.isExactMatch = some b := by
  intro m hm
  obtain ⟨line, _, hline⟩ := List.mem_filterMap.mp hm
  rw [parseGrepLine] at hline
  cases hflt : matchFLT line with
  | none => rw [hflt] at hline; exact absurd hline (by simp)
  | some g =>
    obtain ⟨f, d, t⟩ := g
    rw [hflt] at hline
    dsimp only at hline
    by_cases hnm : strIncludes f "node_modules".data
    · rw [if_pos hnm] at hline; exact absurd hline (by simp)
    · rw [if_neg hnm] at hline
      simp only [Option.some.injEq] at hline
      rw [← hline]

theorem rgCloseValue_flag (b : Bool) (output : String) (code : Int) :
    ∀ m ∈ rgCloseValue b output code, m.isExactMatch = some b := by
  intro m hm
  rw [rgCloseValue] at hm
  split at hm
  · exact absurd hm (by simp)
  · exact parseGrepOutput_flag _ b m (List.mem_filter.mp hm).1

theorem searchWithRipgrep_flag (env : RgEnv) (b : Bool) :
    ∀ m ∈ searchWithRipgrep env b, m.isExactMatch = some b := fun m hm =>
  rgCloseValue_flag b _ _ m hm

/-! ## Claim theorems -/

/-- C1: for every search result produced by the `/find-references`
request handler, `summary.totalMatches` equals the length of the
`references` sequence, and `summary.exactMatches` plus
`summary.partialMatches` equals `summary.totalMatches`. -/
theorem handler_summary_counts (req : SearchRequest) (fsExists : String → Bool)
    (ro : RunnerOutcomes) (searchTime : Nat) (timestamp : String)
    (r : EnhancedSearchResult)
    (h : (handleFindReferences req fsExists ro searchTime timestamp).response =
      HandlerResponse.ok r) :
    r.summary.totalMatches = r.references.length ∧
      r.summary.exactMatches + r.summary.partialMatches = r.summary.totalMatches := by
  rw [handleFindReferences] at h
  by_cases h1 : (jsFalsy req.word || jsFalsy req.directory) = true
  · rw [if_pos h1] at h
    exact absurd h (by simp)
  · rw [if_neg h1] at h
    by_cases h2 : (!fsExists (req.directory.getD "")) = true
    · rw [if_pos h2] at h
      exact absurd h (by simp)
    · rw [if_neg h2] at h
      simp only [HandlerResponse.ok.injEq] at h
      rw [← h, buildResult]
      exact ⟨rfl, length_filter_partition _ _⟩

/-- Witness for C1 at a concrete request. -/
theorem handler_summary_counts_witness :
    (buildResult "foo" "/d" Strategy.all 5 "t" []).summary.totalMatches =
        (buildResult "foo" "/d" Strategy.all 5 "t" []).references.length ∧
      (buildResult "foo" "/d" Strategy.all 5 "t" []).summary.exactMatches +
          (buildResult "foo" "/d" Strategy.all 5 "t" []).summary.partialMatches =
        (buildResult "foo" "/d" Strategy.all 5 "t" []).summary.totalMatches :=
  handler_summary_counts ⟨some "foo", some "/d", some Strategy.all⟩ (fun _ => true)
    ⟨some [], none, none⟩ 5 "t" (buildResult "foo" "/d" Strategy.all 5 "t" []) rfl

/-- C2: the handler's deduplication retains, for every identity key
`(relativePath, line, column)`, exactly one record — the record
occurring last among those sharing the key in concatenation order
(hence also its `isExactMatch` flag) — and the retained records appear
in the mapping's insertion order, i.e. ordered by the first occurrence
of each key.  The string key `` `${relativePath}:${line}:${column}` ``
coincides with the identity key because the rendered numbers are
colon-free (`keyEnc_injective`). -/
theorem dedup_last_wins_in_insertion_order (l : List EnhancedLocation) :
    uniqueRefs l = (firstKeys tripleOf l).filterMap (lastWith tripleOf l) ∧
      (firstKeys tripleOf l).Nodup ∧
      ∀ t, t ∈ firstKeys tripleOf l ↔ ∃ r ∈ l, tripleOf r = t := by
  refine ⟨?_, firstKeys_nodup _ _, fun t => mem_firstKeys _ _ _⟩
  have hfun : refKey = fun r => keyEnc (tripleOf r) := funext refKey_eq_keyEnc
  rw [uniqueRefs, hfun]
  exact jsMapValues_comp keyEnc keyEnc_injective tripleOf l

/-- C4: the in-process scanner runner runs iff the strategy is `node`,
or the strategy is `all` and the record set accumulated from the
TypeScript-aware and grep searches (steps 2–3) is empty. -/
theorem orchestrator_node_dispatch (strategy : Strategy) (ro : RunnerOutcomes) :
    (runSearch strategy ro).ranNode = true ↔
      (strategy = Strategy.node ∨
        (strategy = Strategy.all ∧ stepRefs strategy ro = [])) := by
  simp only [runSearch, decide_eq_true_eq, List.length_eq_zero]
  tauto

/-- C5 (code bug): when ripgrep is unavailable the runner delegates to
the grep fallback, but when grep is also unavailable it returns the
empty list instead of delegating to the in-process Node scanner (whose
results the `nodeResults` oracle holds), contradicting the README's
"Node.js (final fallback) ... used if neither ripgrep nor grep is
available" and the spec. -/
theorem grep_unavailable_returns_empty_not_node :
    findReferencesWithGrep envC5 "foo" = [] ∧
      envC5.nodeResults ≠ [] ∧
      findReferencesWithGrep envC5 "foo" ≠ envC5.nodeResults := by
  refine ⟨rfl, by decide, by decide⟩

/-- C8: a request with a missing word, a missing directory, or a
directory that does not exist is answered with a 400 response carrying
an error and details, and no strategy runner is invoked. -/
theorem handler_validation_400 (req : SearchRequest) (fsExists : String → Bool)
    (ro : RunnerOutcomes) (searchTime : Nat) (timestamp : String)
    (h : req.word = none ∨ req.directory = none ∨
      fsExists (req.directory.getD "") = false) :
    (∃ e d, (handleFindReferences req fsExists ro searchTime timestamp).response =
        HandlerResponse.badRequest e d) ∧
      (handleFindReferences req fsExists ro searchTime timestamp).ranTypescript = false ∧
      (handleFindReferences req fsExists ro searchTime timestamp).ranGrep = false ∧
      (handleFindReferences req fsExists ro searchTime timestamp).ranNode = false := by
  rw [handleFindReferences]
  by_cases h1 : (jsFalsy req.word || jsFalsy req.directory) = true
  · rw [if_pos h1]
    exact ⟨⟨_, _, rfl⟩, rfl, rfl, rfl⟩
  · rw [if_neg h1]
    simp only [Bool.or_eq_true, not_or, Bool.not_eq_true] at h1
    have hne : fsExists (req.directory.getD "") = false := by
      rcases h with h | h | h
      · rw [h] at h1; exact absurd h1.1 (by simp [jsFalsy])
      · rw [h] at h1; exact absurd h1.2 (by simp [jsFalsy])
      · exact h
    rw [if_pos (by simp [hne])]
    exact ⟨⟨_, _, rfl⟩, rfl, rfl, rfl⟩

/-- Witness for C8 at a concrete request with a missing word. -/
theorem handler_validation_400_witness :
    (∃ e d, (handleFindReferences ⟨none, some "/d", none⟩ (fun _ => true)
        ⟨none, none, none⟩ 5 "t").response = HandlerResponse.badRequest e d) ∧
      (handleFindReferences ⟨none, some "/d", none⟩ (fun _ => true)
          ⟨none, none, none⟩ 5 "t").ranTypescript = false ∧
      (handleFindReferences ⟨none, some "/d", none⟩ (fun _ => true)
          ⟨none, none, none⟩ 5 "t").ranGrep = false ∧
      (handleFindReferences ⟨none, some "/d", none⟩ (fun _ => true)
          ⟨none, none, none⟩ 5 "t").ranNode = false :=
  handler_validation_400 ⟨none, some "/d", none⟩ (fun _ => true) ⟨none, none, none⟩ 5 "t"
    (Or.inl rfl)

/-- C9: the reconciler is idempotent — deduplicating a record sequence
that is already unique under the identity key returns it unchanged, and
the recomputed summary coincides. -/
theorem reconciler_idempotent (l : List EnhancedLocation)
    (h : (l.map tripleOf).Nodup) :
    uniqueRefs l = l ∧ summaryOfRefs (uniqueRefs l) = summaryOfRefs l := by
  have hkeys : (l.map refKey).Nodup := by
    have : l.map refKey = (l.map tripleOf).map keyEnc := by
      rw [List.map_map]
      exact List.map_congr_left (fun r _ => refKey_eq_keyEnc r)
    rw [this]
    exact h.map keyEnc_injective
  have h1 : uniqueRefs l = l := by
    rw [uniqueRefs, jsMapValues, jsMapOf_of_nodup refKey l hkeys, List.map_map]
    have hc : (Prod.snd ∘ fun r : EnhancedLocation => (refKey r, r)) = id := rfl
    rw [hc, List.map_id]
  exact ⟨h1, by rw [h1]⟩

/-! ### C3: the exact/partial split of the External-Tool Runner -/

/-- C3 (amended): in the external-tool runner, every record of the
whole-word invocation is emitted as exact, and the returned sequence is
all exact matches followed by all partial matches (on both the ripgrep
path and the grep fallback).  A record of the unconstrained invocation
is emitted as partial exactly when no record with the same
`file:line:text` key is in the exact set *and* — on the ripgrep path
only — its text contains the search word case-insensitively as a
literal substring; the grep fallback path omits the containment
condition, as the claim states it for both. -/
theorem external_runner_exact_partial_split (env : SearchEnv) (word : String) :
    ((searchWithRipgrep env.rg true).all
        (fun m => decide (m.isExactMatch = some true)) = true) ∧
      (∀ m : Location,
        m ∈ rgSearchPath env word ↔
          m ∈ searchWithRipgrep env.rg true ∨
            ∃ m0 ∈ searchWithRipgrep env.rg false,
              keyFLT m0 ∉ (searchWithRipgrep env.rg true).map keyFLT ∧
                strIncludes (jsToLower m0.text.data) (jsToLower word.data) = true ∧
                m = { m0 with isExactMatch := some false }) ∧
      (∃ partialList : List Location,
        rgSearchPath env word = searchWithRipgrep env.rg true ++ partialList ∧
          partialList.all (fun m => decide (m.isExactMatch = some false)) = true) ∧
      ((fbExact env).all (fun m => decide (m.isExactMatch = some true)) = true) ∧
      (∀ m : Location,
        m ∈ fallbackToGrep env ↔
          m ∈ fbExact env ∨
            (m ∈ fbPartialCandidates env ∧ keyFLT m ∉ (fbExact env).map keyFLT)) ∧
      (∃ partialList : List Location,
        fallbackToGrep env = fbExact env ++ partialList ∧
          partialList.all (fun m => decide (m.isExactMatch = some false)) = true) := by
  refine ⟨?_, ?_, ?_, ?_, ?_, ?_⟩
  · rw [List.all_eq_true]
    intro m hm
    simpa using searchWithRipgrep_flag env.rg true m hm
  · intro m
    rw [rgSearchPath]
    simp only [List.mem_append, List.mem_map, List.mem_filter, Bool.and_eq_true,
      Bool.not_eq_true', decide_eq_false_iff_not]
    constructor
    · rintro (h | ⟨m0, ⟨hm0, hkey, hinc⟩, rfl⟩)
      · exact Or.inl h
      · exact Or.inr ⟨m0, hm0, hkey, hinc, rfl⟩
    · rintro (h | ⟨m0, hm0, hkey, hinc, rfl⟩)
      · exact Or.inl h
      · exact Or.inr ⟨m0, ⟨hm0, hkey, hinc⟩, rfl⟩
  · refine ⟨_, rfl, ?_⟩
    rw [List.all_eq_true]
    intro m hm
    obtain ⟨m0, _, rfl⟩ := List.mem_map.mp hm
    simp
  · rw [List.all_eq_true]
    intro m hm
    simpa using parseGrepOutput_flag _ true m hm
  · intro m
    rw [fallbackToGrep]
    simp only [List.mem_append, List.mem_filter, Bool.not_eq_true',
      decide_eq_false_iff_not]
  · refine ⟨_, rfl, ?_⟩
    rw [List.all_eq_true]
    intro m hm
    have hmem : m ∈ fbPartialCandidates env := (List.mem_filter.mp hm).1
    simpa using parseGrepOutput_flag _ false m hmem

/-- C3 counterexample: with search word `fo.` (a regex for ripgrep but
a literal for `includes`), the unconstrained invocation returns a
record (`fox`) whose key occurs in no exact record, yet it is *not*
emitted as partial, because its text does not contain the word as a
literal substring — refuting "emitted as partial exactly when no record
with the same key is in the exact set". -/
theorem external_runner_split_counterexample :
    searchWithRipgrep envC3.rg false = [locC3] ∧
      searchWithRipgrep envC3.rg true = [] ∧
      findReferencesWithGrep envC3 "fo." = [] ∧
      ({ locC3 with isExactMatch := some false } : Location) ∉
        findReferencesWithGrep envC3 "fo." :=
  ⟨rfl, rfl, rfl, by decide⟩

/-! ### C6: excluded directories -/

theorem goodPath_append {base : List String} {name : String}
    (hb : goodPath base = true) (hn : name ∉ ignoreDirsList) :
    goodPath (base ++ [name]) = true := by
  simp only [goodPath, List.all_append, Bool.and_eq_true] at *
  exact ⟨hb, by simp [hn]⟩

/-- A file with a supported extension cannot bear an excluded directory
name: the excluded names all have `path.extname` equal to `""`. -/
theorem supported_not_ignored (name : String)
    (h : jsExtname name ∈ supportedExtensionsList) : name ∉ ignoreDirsList := by
  intro hmem
  rw [ignoreDirsList] at hmem
  simp only [List.mem_cons, List.not_mem_nil, or_false] at hmem
  rcases hmem with rfl | rfl | rfl | rfl | rfl | rfl | rfl | rfl <;>
    exact absurd h (by decide)

theorem foldl_preserves_good {β : Type} (g : NodeScanState → β → NodeScanState)
    (hg : ∀ s b, s.locs.all goodLoc = true → ((g s b).locs.all goodLoc) = true) :
    ∀ (l : List β) (st : NodeScanState), st.locs.all goodLoc = true →
      ((l.foldl g st).locs.all goodLoc) = true := by
  intro l
  induction l with
  | nil => intro st hst; exact hst
  | cons b rest ih =>
    intro st hst
    rw [List.foldl_cons]
    exact ih _ (hg st b hst)

theorem processLine_good (wordIdx subIdx : String → List Nat) (fp : List String)
    (i : Nat) (line : String) (hfp : goodPath fp = true) (st : NodeScanState)
    (hst : st.locs.all goodLoc = true) :
    ((processLine wordIdx subIdx fp i line st).locs.all goodLoc) = true := by
  rw [processLine]
  apply foldl_preserves_good
  · intro s mi hs
    split
    · exact hs
    · dsimp only
      rw [List.all_append, hs]
      simp [goodLoc, hfp]
  · apply foldl_preserves_good
    · intro s mi hs
      dsimp only
      rw [List.all_append, hs]
      simp [goodLoc, hfp]
    · exact hst

theorem processFile_good (wordIdx subIdx : String → List Nat) (fp : List String)
    (lines : List String) (hfp : goodPath fp = true) (st : NodeScanState)
    (hst : st.locs.all goodLoc = true) :
    ((processFile wordIdx subIdx fp lines st).locs.all goodLoc) = true := by
  rw [processFile]
  apply foldl_preserves_good
  · intro s p hs
    exact processLine_good wordIdx subIdx fp p.1 p.2 hfp s hs
  · exact hst

mutual
theorem scanEntry_good (wordIdx subIdx : String → List Nat) :
    ∀ (base : List String) (t : FSTree) (st : NodeScanState),
      goodPath base = true → st.locs.all goodLoc = true →
      ((scanEntry wordIdx subIdx base t st).locs.all goodLoc) = true
  | base, .dir name children, st, hb, hst => by
    rw [scanEntry]
    by_cases hproc : base ++ [FSTree.name (.dir name children)] ∈ st.processed
    · rw [if_pos hproc]; exact hst
    · rw [if_neg hproc]
      dsimp only
      by_cases hign : name ∈ ignoreDirsList
      · rw [if_pos hign]; exact hst
      · rw [if_neg hign]
        exact scanForest_good wordIdx subIdx (base ++ [FSTree.name (.dir name children)])
          children _ (goodPath_append hb hign) hst
  | base, .file name lines, st, hb, hst => by
    rw [scanEntry]
    by_cases hproc : base ++ [FSTree.name (.file name lines)] ∈ st.processed
    · rw [if_pos hproc]; exact hst
    · rw [if_neg hproc]
      dsimp only
      by_cases hext : jsExtname name ∈ supportedExtensionsList
      · rw [if_pos hext]
        exact processFile_good wordIdx subIdx _ lines
          (goodPath_append hb (supported_not_ignored name hext)) _ hst
      · rw [if_neg hext]; exact hst

theorem scanForest_good (wordIdx subIdx : String → List Nat) :
    ∀ (base : List String) (f : FSForest) (st : NodeScanState),
      goodPath base = true → st.locs.all goodLoc = true →
      ((scanForest wordIdx subIdx base f st).locs.all goodLoc) = true
  | base, .nil, st, _, hst => hst
  | base, .cons t rest, st, hb, hst => by
    rw [scanForest]
    exact scanForest_good wordIdx subIdx base rest _ hb
      (scanEntry_good wordIdx subIdx base t st hb hst)
end

theorem goodTsPath_append {base : List String} {name : String}
    (hb : goodTsPath base = true) (h1 : name ≠ "node_modules") (h2 : name ≠ ".git") :
    goodTsPath (base ++ [name]) = true := by
  simp only [goodTsPath, List.all_append, Bool.and_eq_true] at *
  exact ⟨hb, by simp [h1, h2]⟩

mutual
theorem ftsEntry_good :
    ∀ (base : List String) (t : FSTree), goodTsPath base = true →
      ((ftsEntry base t).all (fun pf => goodTsPath pf.1)) = true
  | base, .dir name children, hb => by
    rw [ftsEntry]
    by_cases hok : name ≠ "node_modules" ∧ name ≠ ".git"
    · rw [if_pos hok]
      exact ftsForest_good (base ++ [name]) children (goodTsPath_append hb hok.1 hok.2)
    · rw [if_neg hok]; rfl
  | base, .file name lines, hb => by
    rw [ftsEntry]
    by_cases hts : jsEndsWith name ".ts" ∨ jsEndsWith name ".tsx"
    · rw [if_pos hts]
      have h1 : name ≠ "node_modules" := by rintro rfl; revert hts; decide
      have h2 : name ≠ ".git" := by rintro rfl; revert hts; decide
      simpa using goodTsPath_append hb h1 h2
    · rw [if_neg hts]; rfl

theorem ftsForest_good :
    ∀ (base : List String) (f : FSForest), goodTsPath base = true →
      ((ftsForest base f).all (fun pf => goodTsPath pf.1)) = true
  | base, .nil, _ => rfl
  | base, .cons t rest, hb => by
    rw [ftsForest, List.all_append]
    rw [ftsEntry_good base t hb, ftsForest_good base rest hb]
    rfl
end

/-- C6 (amended): the in-process scanner never returns a record whose
`relativePath` has a component in the excluded-directory list; the
symbol-aware runner's file discovery excludes only `node_modules` and
`.git` (so `dist`, `build`, `out`, `.next`, `coverage`, `.cache` can
appear in its records — see the counterexample); the external tool's
exclusion globs live outside this repository. -/
theorem excluded_dirs_by_runner :
    (∀ (wordIdx subIdx : String → List Nat) (root : FSForest),
        ((findReferencesWithNode wordIdx subIdx root).all goodLoc) = true) ∧
      ∀ root : FSForest,
        ((findTypeScriptFiles root).all (fun pf => goodTsPath pf.1)) = true := by
  constructor
  · intro wordIdx subIdx root
    rw [findReferencesWithNode]
    exact scanForest_good wordIdx subIdx [] root _ rfl rfl
  · intro root
    exact ftsForest_good [] root rfl

/-- C6 counterexample: `findTypeScriptFiles` descends into `dist` (it
excludes only `node_modules` and `.git`), so the symbol-aware runner
returns a record under the excluded build directory `dist` for any file
there containing the searched identifier. -/
theorem ts_runner_dist_counterexample :
    findTypeScriptFiles forestC6 = [(["dist", "a.ts"], ["const foo = 1;"])] ∧
      tsRunnerRecords (fun _ => [(1, 7)]) forestC6 =
        [{ relPath := ["dist", "a.ts"], line := 1, column := 7 }] ∧
      "dist" ∈ (["dist", "a.ts"] : List String) ∧
      "dist" ∈ ignoreDirsList :=
  ⟨rfl, rfl, by decide, by decide⟩

/-! ### C7: the external-tool timeout -/

/-- Resolution is one-shot: once the promise holds a value, no later
event changes it. -/
theorem rgRun_result_frozen (exactMatch : Bool) (events : List RgEvent) :
    ∀ (st : RgPromise) (v : List Location), st.result = some v →
      (events.foldl (rgStep exactMatch) st).result = some v := by
  induction events with
  | nil => intro st v hv; exact hv
  | cons e rest ih =>
    intro st v hv
    rw [List.foldl_cons]
    apply ih
    cases e with
    | outData s => exact hv
    | errData s => exact hv
    | closeEv code => simp [rgStep, rgResolve, hv]
    | errorEv => simp [rgStep, rgResolve, hv]
    | timeoutEv =>
      rw [rgStep]
      split
      · exact hv
      · simp [rgResolve, hv]

/-- `kill` is never undone. -/
theorem rgRun_killed_frozen (exactMatch : Bool) (events : List RgEvent) :
    ∀ st : RgPromise, st.killed = true →
      (events.foldl (rgStep exactMatch) st).killed = true := by
  induction events with
  | nil => intro st hk; exact hk
  | cons e rest ih =>
    intro st hk
    rw [List.foldl_cons]
    apply ih
    cases e with
    | outData s => exact hk
    | errData s => exact hk
    | closeEv code =>
      rw [rgStep]
      cases hres : st.result <;> simp [rgResolve, hres, hk]
    | errorEv =>
      rw [rgStep]
      cases hres : st.result <;> simp [rgResolve, hres, hk]
    | timeoutEv =>
      rw [rgStep]
      split
      · exact hk
      · cases hres : st.result <;> simp [rgResolve, hres, hk]

/-- Before any `close` event, the promise is unresolved or already
resolved with `[]`, and the timeout is not yet cleared. -/
theorem rgRun_pre_close (exactMatch : Bool) (events : List RgEvent)
    (hnc : ∀ e ∈ events, e.isClose = false) :
    ∀ st : RgPromise, st.timeoutCleared = false →
      (st.result = none ∨ st.result = some []) →
      ((events.foldl (rgStep exactMatch) st).timeoutCleared = false ∧
        ((events.foldl (rgStep exactMatch) st).result = none ∨
          (events.foldl (rgStep exactMatch) st).result = some [])) := by
  induction events with
  | nil => intro st h1 h2; exact ⟨h1, h2⟩
  | cons e rest ih =>
    intro st h1 h2
    rw [List.foldl_cons]
    have hnc' : ∀ e' ∈ rest, e'.isClose = false := fun e' he' =>
      hnc e' (List.mem_cons_of_mem _ he')
    apply ih hnc'
    case _ =>
      cases e with
      | outData s => exact h1
      | errData s => exact h1
      | closeEv code => exact absurd (hnc _ (List.mem_cons_self _ _)) (by simp [RgEvent.isClose])
      | errorEv => cases hres : st.result <;> simp [rgStep, rgResolve, hres, h1]
      | timeoutEv =>
        rw [rgStep]
        split
        · exact h1
        · cases hres : st.result <;> simp [rgResolve, hres, h1]
    case _ =>
      cases e with
      | outData s => exact h2
      | errData s => exact h2
      | closeEv code => exact absurd (hnc _ (List.mem_cons_self _ _)) (by simp [RgEvent.isClose])
      | errorEv =>
        rcases h2 with h2 | h2 <;> simp [rgStep, rgResolve, h2]
      | timeoutEv =>
        rw [rgStep]
        split
        · exact h2
        · rcases h2 with h2 | h2 <;> simp [rgResolve, h2]

/-- C7: if the 30000 ms timeout (`rgTimeoutMs`) fires before the
process closes, the child process is killed and that invocation
resolves to the empty result list — it neither rejects (no handler
calls `reject`) nor stays pending. -/
theorem rg_timeout_resolves_empty (exactMatch : Bool) (pre post : List RgEvent)
    (hnc : ∀ e ∈ pre, e.isClose = false) :
    (rgRun exactMatch (pre ++ RgEvent.timeoutEv :: post)).result = some [] ∧
      (rgRun exactMatch (pre ++ RgEvent.timeoutEv :: post)).killed = true := by
  rw [rgRun, List.foldl_append, List.foldl_cons]
  obtain ⟨hcl, hres⟩ := rgRun_pre_close exactMatch pre hnc rgInit rfl (Or.inl rfl)
  set st0 := pre.foldl (rgStep exactMatch) rgInit with hst0
  have hstep : (rgStep exactMatch st0 RgEvent.timeoutEv).result = some [] ∧
      (rgStep exactMatch st0 RgEvent.timeoutEv).killed = true := by
    rw [rgStep, if_neg (by simp [hcl])]
    rcases hres with h | h <;> simp [rgResolve, h]
  exact ⟨rgRun_result_frozen exactMatch post _ [] hstep.1,
    rgRun_killed_frozen exactMatch post _ hstep.2⟩

/-- Witness for C7 on a concrete event trace. -/
theorem rg_timeout_resolves_empty_witness :
    (rgRun true ([RgEvent.outData "x"] ++ RgEvent.timeoutEv ::
        [RgEvent.closeEv 0])).result = some [] ∧
      (rgRun true ([RgEvent.outData "x"] ++ RgEvent.timeoutEv ::
          [RgEvent.closeEv 0])).killed = true :=
  rg_timeout_resolves_empty true [RgEvent.outData "x"] [RgEvent.closeEv 0]
    (by intro e he; simp at he; rw [he]; rfl)

/-! ### C10: `parseGrepOutput` column and text -/

theorem dropWhile_head_not {α : Type} (p : α → Bool) (l : List α) (a : α)
    (as : List α) (h : l.dropWhile p = a :: as) : p a = false := by
  induction l with
  | nil => simp at h
  | cons b t ih =>
    rw [List.dropWhile_cons] at h
    split at h
    · exact ih h
    · next hb =>
      injection h with h1 _
      subst h1
      simpa using hb

/-- Dropping trailing whitespace decomposes a list into the kept prefix
and an all-whitespace suffix. -/
theorem trimRight_decomp (r : List Char) :
    r = (r.reverse.dropWhile isJsWS).reverse ++ (r.reverse.takeWhile isJsWS).reverse ∧
      ∀ c ∈ (r.reverse.takeWhile isJsWS).reverse, isJsWS c = true := by
  constructor
  · have h1 : r.reverse.takeWhile isJsWS ++ r.reverse.dropWhile isJsWS = r.reverse :=
      List.takeWhile_append_dropWhile isJsWS r.reverse
    have h2 := congrArg List.reverse h1
    rw [List.reverse_append, List.reverse_reverse] at h2
    exact h2.symm
  · intro c hc
    exact List.mem_takeWhile_imp (List.mem_reverse.mp hc)

/-- The first occurrence of a pattern starting with a non-whitespace
character, when the pattern prefixes `r`, is right after the leading
whitespace `w`. -/
theorem jsIndexOf_after_ws (w r : List Char) (ph : Char) (pt : List Char)
    (hw : ∀ c ∈ w, isJsWS c = true) (hph : isJsWS ph = false)
    (hp : (ph :: pt).isPrefixOf r = true) :
    jsIndexOf (w ++ r) (ph :: pt) = (w.length : Int) := by
  induction w with
  | nil =>
    rw [List.nil_append, jsIndexOf.eq_def]
    dsimp only
    rw [if_pos hp]
    rfl
  | cons c wt ih =>
    have hc : isJsWS c = true := hw c (by simp)
    have hne : (ph == c) = false := by
      rw [beq_eq_false_iff_ne]
      intro he
      rw [he, hc] at hph
      simp at hph
    rw [List.cons_append, jsIndexOf.eq_def]
    dsimp only
    have hnp : (ph :: pt).isPrefixOf (c :: (wt ++ r)) = false := by
      simp [List.isPrefixOf, hne]
    rw [if_neg (by simp [hnp])]
    rw [ih (fun d hd => hw d (by simp [hd]))]
    have hnonneg : ¬((wt.length : Int) < 0) := by omega
    rw [if_neg hnonneg]
    simp only [List.length_cons]
    push_cast
    ring

theorem jsTrim_eq_nil (t : List Char) (h : t.dropWhile isJsWS = []) :
    jsTrim t = [] := by
  rw [jsTrim, h]
  rfl

theorem jsIndexOf_nil_pat (s : List Char) : jsIndexOf s [] = 0 := by
  rw [jsIndexOf.eq_def]
  dsimp only
  rw [if_pos (by simp [List.isPrefixOf])]

/-- When the matched content has a non-whitespace character, the first
occurrence of its trimmed form is right after the leading whitespace. -/
theorem jsIndexOf_trim (t : List Char) (hne : t.dropWhile isJsWS ≠ []) :
    jsIndexOf t (jsTrim t) = (leadingWS t : Int) := by
  obtain ⟨hdec, hsuffws⟩ := trimRight_decomp (t.dropWhile isJsWS)
  cases htrc : ((t.dropWhile isJsWS).reverse.dropWhile isJsWS).reverse with
  | nil =>
    rw [htrc, List.nil_append] at hdec
    obtain ⟨rh, rt, hr⟩ : ∃ rh rt, t.dropWhile isJsWS = rh :: rt := by
      cases h : t.dropWhile isJsWS with
      | nil => exact absurd h hne
      | cons a as => exact ⟨a, as, rfl⟩
    have hws : isJsWS rh = true := hsuffws rh (by rw [← hdec, hr]; simp)
    have hnws : isJsWS rh = false := dropWhile_head_not isJsWS t rh rt hr
    rw [hws] at hnws
    simp at hnws
  | cons th tt =>
    rw [htrc] at hdec
    rw [List.cons_append] at hdec
    have hphead : isJsWS th = false := dropWhile_head_not isJsWS t th _ hdec
    have hpre : (th :: tt).isPrefixOf (t.dropWhile isJsWS) = true := by
      simp only [List.isPrefixOf_iff_prefix]
      exact ⟨_, by rw [List.cons_append, ← hdec]⟩
    have hjs : jsTrim t = th :: tt := htrc
    rw [hjs]
    conv_lhs =>
      rw [show t = t.takeWhile isJsWS ++ t.dropWhile isJsWS from
        (List.takeWhile_append_dropWhile isJsWS t).symm]
    exact jsIndexOf_after_ws (t.takeWhile isJsWS) (t.dropWhile isJsWS) th tt
      (fun c hc => List.mem_takeWhile_imp hc) hphead hpre

/-- C10 (amended): every location produced by `parseGrepOutput` has
`text` equal to the matched content trimmed; its `column` is one plus
the number of leading whitespace characters of the content whenever the
content has a non-whitespace character; when the content is entirely
whitespace, `text` is empty and `column` is 1 (because
`''.indexOf('')` is 0), not `1 + leading-whitespace`. -/
theorem parse_grep_trim_column (isExact : Bool) (line : List Char) (loc : Location)
    (h : parseGrepLine isExact line = some loc) :
    ∃ f d t, matchFLT line = some (f, d, t) ∧
      loc.text = String.mk (jsTrim t) ∧
      (t.dropWhile isJsWS ≠ [] → loc.column = (leadingWS t : Int) + 1) ∧
      (t.dropWhile isJsWS = [] → loc.text = "" ∧ loc.column = 1) := by
  rw [parseGrepLine] at h
  cases hflt : matchFLT line with
  | none => rw [hflt] at h; exact absurd h (by simp)
  | some g =>
    obtain ⟨f, d, t⟩ := g
    rw [hflt] at h
    dsimp only at h
    by_cases hnm : strIncludes f "node_modules".data = true
    · rw [if_pos hnm] at h; exact absurd h (by simp)
    · rw [if_neg hnm] at h
      simp only [Option.some.injEq] at h
      refine ⟨f, d, t, rfl, ?_, ?_, ?_⟩
      · rw [← h]
      · intro hne
        rw [← h]
        dsimp only
        rw [jsIndexOf_trim t hne]
      · intro hnil
        rw [← h]
        refine ⟨?_, ?_⟩
        · dsimp only
          rw [jsTrim_eq_nil t hnil]
        · dsimp only
          rw [jsTrim_eq_nil t hnil, jsIndexOf_nil_pat]
          omega

/-- Witness for C10 (amended) at a concrete line with leading
whitespace in the content. -/
theorem parse_grep_trim_column_witness :
    ∃ f d t, matchFLT "f.ts:3:  foo ".data = some (f, d, t) ∧
      locC10.text = String.mk (jsTrim t) ∧
      (t.dropWhile isJsWS ≠ [] → locC10.column = (leadingWS t : Int) + 1) ∧
      (t.dropWhile isJsWS = [] → locC10.text = "" ∧ locC10.column = 1) :=
  parse_grep_trim_column true "f.ts:3:  foo ".data locC10 rfl

/-- C10 counterexample: on the output line `f:1: ` the matched content
is the single space `" "`; the produced location has `column = 1`
(`"".indexOf("")` is 0), while one plus the content's leading
whitespace count would be 2. -/
theorem parse_grep_column_counterexample :
    matchFLT "f:1: ".data = some ("f".data, "1".data, " ".data) ∧
      parseGrepOutput "f:1: " true =
        [{ file := "f", line := 1, column := 1, text := "", isExactMatch := some true }] ∧
      leadingWS " ".data = 1 ∧
      ((1 : Int) ≠ (leadingWS " ".data : Int) + 1) :=
  ⟨rfl, rfl, rfl, by decide⟩

/-- Witness for C9 at a concrete two-record sequence. -/
theorem reconciler_idempotent_witness :
    uniqueRefs
        [{ file := "/d/a.ts", line := 1, column := 1, text := "foo",
           isExactMatch := some true, relativePath := "a.ts", fileType := "ts" },
         { file := "/d/a.ts", line := 2, column := 1, text := "foo",
           isExactMatch := some false, relativePath := "a.ts", fileType := "ts" }] =
      [{ file := "/d/a.ts", line := 1, column := 1, text := "foo",
         isExactMatch := some true, relativePath := "a.ts", fileType := "ts" },
       { file := "/d/a.ts", line := 2, column := 1, text := "foo",
         isExactMatch := some false, relativePath := "a.ts", fileType := "ts" }] ∧
      summaryOfRefs (uniqueRefs
        [{ file := "/d/a.ts", line := 1, column := 1, text := "foo",
           isExactMatch := some true, relativePath := "a.ts", fileType := "ts" },
         { file := "/d/a.ts", line := 2, column := 1, text := "foo",
           isExactMatch := some false, relativePath := "a.ts", fileType := "ts" }]) =
        summaryOfRefs
          [{ file := "/d/a.ts", line := 1, column := 1, text := "foo",
             isExactMatch := some true, relativePath := "a.ts", fileType := "ts" },
           { file := "/d/a.ts", line := 2, column := 1, text := "foo",
             isExactMatch := some false, relativePath := "a.ts", fileType := "ts" }] :=
  reconciler_idempotent _ (by decide)

end McpServer
